import Mathlib

/-!
Verification of the feature-extraction and feature-naming subsystem of a
molecular-descriptor library.  The development shallowly embeds:

* the feature-name codec: `generate_feature_id` (symbol+index token
  concatenation) and `parse_feature_name` (regex-style extraction of the
  leading `[a-z_]+` alias and of every maximal digit run);
* the geometric feature functions (distance, angle, plane normals,
  inter-plane cosine) over real-valued 3-vectors;
* the tabular feature builder (`__add_universal_feature` and its public
  wrappers) over an explicit data-frame model with row labels, together
  with the `__check_df` validation run by the `assert_proper_input`
  decorator.

Machine floats are modelled as real numbers; Python `list`/`numpy`
indexing (including negative-index wrap-around) is modelled by `pyGet`;
Python exceptions are modelled by `Except PyError`.
-/

namespace AuFeatures

/-! ### Character classes of the decoding regexes

`parse_feature_name` uses `re.findall(r"\d+", s)` and
`re.match(r"^[a-z_]+", s)`.  The two character classes are modelled over
ASCII code points. -/

/-- Character class `\d` of the index-extracting regex (ASCII digits). -/
def isDigitC (c : Char) : Bool := 48 ≤ c.toNat && c.toNat ≤ 57

/-- Lowercase ASCII letter, part of the alias character class. -/
def isLowerC (c : Char) : Bool := 97 ≤ c.toNat && c.toNat ≤ 122

/-- Uppercase ASCII letter (first character of a chemical symbol). -/
def isUpperC (c : Char) : Bool := 65 ≤ c.toNat && c.toNat ≤ 90

/-- Character class `[a-z_]` of the alias-matching regex. -/
def isAliasChar (c : Char) : Bool := isLowerC c || c == '_'

theorem isDigitC_iff (c : Char) : isDigitC c = true ↔ 48 ≤ c.toNat ∧ c.toNat ≤ 57 := by
  simp [isDigitC]

theorem isLowerC_iff (c : Char) : isLowerC c = true ↔ 97 ≤ c.toNat ∧ c.toNat ≤ 122 := by
  simp [isLowerC]

theorem isUpperC_iff (c : Char) : isUpperC c = true ↔ 65 ≤ c.toNat ∧ c.toNat ≤ 90 := by
  simp [isUpperC]

theorem isDigitC_eq_false (c : Char) (h : ¬ (48 ≤ c.toNat ∧ c.toNat ≤ 57)) :
    isDigitC c = false := by
  rw [Bool.eq_false_iff]
  intro hc
  exact h ((isDigitC_iff c).mp hc)

theorem isAliasChar_not_digit {c : Char} (h : isAliasChar c = true) :
    isDigitC c = false := by
  rcases Bool.or_eq_true_iff.mp h with h1 | h2
  · obtain ⟨h3, h4⟩ := (isLowerC_iff c).mp h1
    exact isDigitC_eq_false c (by omega)
  · have hc : c = '_' := by simpa using h2
    subst hc
    decide

theorem isUpperC_not_digit {c : Char} (h : isUpperC c = true) :
    isDigitC c = false := by
  obtain ⟨h3, h4⟩ := (isUpperC_iff c).mp h
  exact isDigitC_eq_false c (by omega)

theorem isLowerC_not_digit {c : Char} (h : isLowerC c = true) :
    isDigitC c = false := by
  obtain ⟨h3, h4⟩ := (isLowerC_iff c).mp h
  exact isDigitC_eq_false c (by omega)

theorem isUpperC_not_alias {c : Char} (h : isUpperC c = true) :
    isAliasChar c = false := by
  obtain ⟨h3, h4⟩ := (isUpperC_iff c).mp h
  rw [Bool.eq_false_iff]
  intro hc
  rcases Bool.or_eq_true_iff.mp hc with h1 | h2
  · obtain ⟨h5, h6⟩ := (isLowerC_iff c).mp h1
    omega
  · have hc2 : c = '_' := by simpa using h2
    subst hc2
    exact absurd h4 (by decide)

/-! ### Decimal rendering and parsing of indices

Python renders an index into a feature name with an f-string (`str`) and
parses it back with `int`.  Rendering is modelled through `Nat.digits`,
parsing through `Nat.ofDigits`. -/

/-- Decimal rendering of a natural number, most-significant digit first;
model of Python `str` on a non-negative `int`. -/
def natDecimal (n : Nat) : List Char :=
  if n = 0 then ['0']
  else (Nat.digits 10 n).reverse.map (fun d => Char.ofNat (48 + d))

/-- Decimal rendering of a Python `int`, with a leading minus sign when
negative. -/
def intDecimal (i : Int) : List Char :=
  if i < 0 then '-' :: natDecimal i.natAbs else natDecimal i.toNat

/-- Decimal value of a digit string; model of Python `int` applied to a
string of ASCII digits. -/
def decimalToNat (ds : List Char) : Nat :=
  Nat.ofDigits 10 ((ds.map (fun c => c.toNat - 48)).reverse)

theorem charOfNat_digit_toNat : ∀ d, d < 10 → (Char.ofNat (48 + d)).toNat = 48 + d := by
  decide

theorem map_eq_self_of {α : Type} (l : List α) (f : α → α) (h : ∀ a ∈ l, f a = a) :
    l.map f = l := by
  induction l with
  | nil => rfl
  | cons a l ih =>
    simp only [List.map_cons]
    rw [h a (by simp), ih (fun b hb => h b (by simp [hb]))]

theorem natDecimal_ne_nil (n : Nat) : natDecimal n ≠ [] := by
  unfold natDecimal
  split
  · simp
  · simp only [ne_eq, List.map_eq_nil_iff, List.reverse_eq_nil_iff]
    exact Nat.digits_ne_nil_iff_ne_zero.mpr (by omega)

theorem natDecimal_all_digits (n : Nat) :
    ∀ c ∈ natDecimal n, isDigitC c = true := by
  intro c hc
  unfold natDecimal at hc
  split at hc
  · simp only [List.mem_singleton] at hc
    subst hc
    decide
  · simp only [List.mem_map, List.mem_reverse] at hc
    obtain ⟨d, hd, rfl⟩ := hc
    have hd10 : d < 10 := Nat.digits_lt_base (by norm_num) hd
    unfold isDigitC
    rw [charOfNat_digit_toNat d hd10]
    simp only [Bool.and_eq_true_iff, decide_eq_true_eq]
    omega

theorem decimalToNat_natDecimal (n : Nat) : decimalToNat (natDecimal n) = n := by
  unfold decimalToNat natDecimal
  split
  · subst n
    simp [Nat.ofDigits]
  · have hmap : ((Nat.digits 10 n).reverse.map (fun d => Char.ofNat (48 + d))).map
        (fun c => c.toNat - 48) = (Nat.digits 10 n).reverse := by
      rw [List.map_map]
      apply map_eq_self_of
      intro d hd
      rw [List.mem_reverse] at hd
      have hd10 : d < 10 := Nat.digits_lt_base (by norm_num) hd
      simp only [Function.comp_apply]
      rw [charOfNat_digit_toNat d hd10]
      omega
    rw [hmap, List.reverse_reverse, Nat.ofDigits_digits]

/-! ### Maximal digit runs

`digitGroups` models `re.findall(r"\d+", s)`: the list of all maximal
runs of digit characters, in left-to-right order. -/

/-- Worker for `digitGroups`; `acc` holds the reversed digits of the run
currently being scanned. -/
def digitGroupsAux : List Char → List Char → List (List Char)
  | [], acc => if acc = [] then [] else [acc.reverse]
  | c :: cs, acc =>
    if isDigitC c then digitGroupsAux cs (c :: acc)
    else if acc = [] then digitGroupsAux cs []
    else acc.reverse :: digitGroupsAux cs []

/-- Model of `re.findall(r"\d+", s)`: every maximal digit run of `s`. -/
def digitGroups (s : List Char) : List (List Char) := digitGroupsAux s []

theorem digitGroupsAux_nonDigits (xs ys : List Char)
    (h : ∀ c ∈ xs, isDigitC c = false) :
    digitGroupsAux (xs ++ ys) [] = digitGroupsAux ys [] := by
  induction xs with
  | nil => rfl
  | cons x xs ih =>
    have hx : isDigitC x = false := h x (by simp)
    simp only [List.cons_append, digitGroupsAux, hx, if_neg, Bool.false_eq_true,
      if_false, if_pos rfl]
    exact ih (fun c hc => h c (by simp [hc]))

theorem digitGroupsAux_digits (ds : List Char)
    (h : ∀ c ∈ ds, isDigitC c = true) :
    ∀ acc ys, digitGroupsAux (ds ++ ys) acc = digitGroupsAux ys (ds.reverse ++ acc) := by
  induction ds with
  | nil => intro acc ys; rfl
  | cons d ds ih =>
    intro acc ys
    have hd : isDigitC d = true := h d (by simp)
    have step : digitGroupsAux ((d :: ds) ++ ys) acc = digitGroupsAux (ds ++ ys) (d :: acc) := by
      simp [digitGroupsAux, hd]
    rw [step, ih (fun c hc => h c (by simp [hc])) (d :: acc) ys]
    simp

theorem digitGroupsAux_emit (ys acc : List Char) (hacc : acc ≠ [])
    (hys : ys = [] ∨ ∃ c cs, ys = c :: cs ∧ isDigitC c = false) :
    digitGroupsAux ys acc = acc.reverse :: digitGroupsAux ys [] := by
  rcases hys with rfl | ⟨c, cs, rfl, hc⟩
  · simp [digitGroupsAux, hacc]
  · simp [digitGroupsAux, hc, hacc]

/-- Digit runs of a concatenation of blocks, each block a non-empty
digit-free part followed by a non-empty digit part: exactly the digit
parts, in order. -/
theorem digitGroupsAux_blocks (pairs : List (List Char × List Char))
    (h : ∀ pr ∈ pairs, pr.1 ≠ [] ∧ (∀ c ∈ pr.1, isDigitC c = false) ∧
      pr.2 ≠ [] ∧ (∀ c ∈ pr.2, isDigitC c = true)) :
    digitGroupsAux (List.flatten (pairs.map (fun pr => pr.1 ++ pr.2))) []
      = pairs.map (fun pr => pr.2) := by
  induction pairs with
  | nil => rfl
  | cons pr rest ih =>
    obtain ⟨hs, hsnd, hd, hdd⟩ := h pr (by simp)
    simp only [List.map_cons, List.flatten_cons, List.append_assoc]
    rw [digitGroupsAux_nonDigits _ _ hsnd]
    rw [digitGroupsAux_digits _ hdd [] _]
    rw [List.append_nil]
    have hemit : List.flatten (rest.map (fun pr => pr.1 ++ pr.2)) = [] ∨
        ∃ c cs, List.flatten (rest.map (fun pr => pr.1 ++ pr.2)) = c :: cs ∧
          isDigitC c = false := by
      cases rest with
      | nil => left; rfl
      | cons pr2 rest2 =>
        right
        obtain ⟨hs2, hsnd2, _, _⟩ := h pr2 (by simp)
        cases hpr2 : pr2.1 with
        | nil => exact absurd hpr2 hs2
        | cons c cs2 =>
          refine ⟨c, cs2 ++ pr2.2 ++ List.flatten (rest2.map (fun pr => pr.1 ++ pr.2)), ?_, ?_⟩
          · simp [hpr2]
          · exact hsnd2 c (by simp [hpr2])
    rw [digitGroupsAux_emit _ _ (by simpa using hd) hemit]
    rw [List.reverse_reverse]
    rw [ih (fun pr2 h2 => h pr2 (by simp [h2]))]

/-! ### Leading alias run -/

theorem takeWhile_append_head (q : Char → Bool) (xs : List Char) (c : Char)
    (ys : List Char) (hxs : ∀ x ∈ xs, q x = true) (hc : q c = false) :
    (xs ++ c :: ys).takeWhile q = xs := by
  induction xs with
  | nil => simp [List.takeWhile, hc]
  | cons x xs ih =>
    have hx : q x = true := hxs x (by simp)
    simp only [List.cons_append, List.takeWhile_cons, hx, if_pos]
    rw [ih (fun y hy => hxs y (by simp [hy]))]

/-! ### Structures: model of `ase.atoms.Atoms` -/

/-- Real 3-vector; model of one row of the numpy `positions` array. -/
abbrev Vec3 := ℝ × ℝ × ℝ

/-- Model of `ase.atoms.Atoms`: an ordered sequence of atoms, each with a
chemical symbol and a 3-D position. -/
structure Atoms where
  symbols : List (List Char)
  positions : List Vec3

/-- Chemical symbol as accepted by the `ase.Atoms` constructor: one
uppercase ASCII letter followed by lowercase ASCII letters, never a
digit. -/
def validSymbol (s : List Char) : Bool :=
  match s with
  | [] => false
  | c :: cs => isUpperC c && cs.all isLowerC

/-- Invariant maintained by every `ase.atoms.Atoms` value: the symbol and
position sequences are aligned and every symbol is a periodic-table
symbol. -/
def Atoms.WF (p : Atoms) : Bool :=
  (p.symbols.length == p.positions.length) && p.symbols.all validSymbol

theorem validSymbol_cases {s : List Char} (h : validSymbol s = true) :
    ∃ c cs, s = c :: cs ∧ isUpperC c = true ∧ ∀ x ∈ cs, isLowerC x = true := by
  cases s with
  | nil => exact absurd h (by decide)
  | cons c cs =>
    refine ⟨c, cs, rfl, ?_, ?_⟩
    · exact (Bool.and_eq_true_iff.mp h).1
    · intro x hx
      have h2 := (Bool.and_eq_true_iff.mp h).2
      exact List.all_eq_true.mp h2 x hx

theorem validSymbol_ne_nil {s : List Char} (h : validSymbol s = true) : s ≠ [] := by
  obtain ⟨c, cs, rfl, _, _⟩ := validSymbol_cases h
  simp

theorem validSymbol_no_digit {s : List Char} (h : validSymbol s = true) :
    ∀ x ∈ s, isDigitC x = false := by
  obtain ⟨c, cs, rfl, hup, hlow⟩ := validSymbol_cases h
  intro x hx
  rcases List.mem_cons.mp hx with rfl | hx2
  · exact isUpperC_not_digit hup
  · exact isLowerC_not_digit (hlow x hx2)

/-- Python list / 1-D numpy indexing: a non-negative index counts from
the front, a negative index wraps once from the back, everything else is
an `IndexError` (`none`). -/
def pyGet {α : Type} (l : List α) (i : Int) : Option α :=
  if 0 ≤ i then l.get? i.toNat
  else if 0 ≤ i + l.length then l.get? (i + l.length).toNat
  else none

/-- Model of `get_particle_symbols`: chemical-symbol lookup
`particle.get_chemical_symbols()[idx]` for every index, in argument
order. -/
def get_particle_symbols (p : Atoms) (idxs : List Int) : Option (List (List Char)) :=
  idxs.mapM (fun idx => pyGet p.symbols idx)

/-- Model of `generate_feature_id`: the optional prefix (default empty)
followed by the concatenation of `f"{s}{idx}"` fields in argument
order. -/
def generate_feature_id (p : Atoms) (idxs : List Int) (pfx : List Char := []) :
    Option (List Char) :=
  (get_particle_symbols p idxs).map
    (fun syms => pfx ++ (List.zipWith (fun s idx => s ++ intDecimal idx) syms idxs).flatten)

/-- Dict returned by `parse_feature_name`. -/
structure ParsedFeature where
  signature : List Char
  aliasStr : List Char
  atoms_idxs : List Int
deriving DecidableEq

/-- Model of `parse_feature_name`: `re.findall` of every maximal digit
run gives the index tuple and `re.match` of the leading `[a-z_]+` run
gives the alias; `none` models the `AttributeError` raised when the
alias regex does not match at the start of the name. -/
def parse_feature_name (s : List Char) : Option ParsedFeature :=
  if s.takeWhile isAliasChar = [] then none
  else some ⟨s, s.takeWhile isAliasChar,
    (digitGroups s).map (fun g => (decimalToNat g : Int))⟩

/-- Name composition performed by `__add_universal_feature`:
`f"{name_prefix}{generate_feature_id(particle, *idxs)}"`. -/
def composeFeatureName (pfx : List Char) (p : Atoms) (idxs : List Int) :
    Option (List Char) :=
  (generate_feature_id p idxs).map (fun gid => pfx ++ gid)

theorem pyGet_nonneg {α : Type} (l : List α) (i : Int) (h0 : 0 ≤ i) :
    pyGet l i = l.get? i.toNat := by
  unfold pyGet
  rw [if_pos h0]

theorem get_particle_symbols_valid (p : Atoms) (hwf : p.WF = true)
    (idxs : List Int) (hv : ∀ i ∈ idxs, 0 ≤ i ∧ i < (p.symbols.length : Int)) :
    ∃ syms, get_particle_symbols p idxs = some syms ∧
      syms.length = idxs.length ∧ ∀ s ∈ syms, validSymbol s = true := by
  induction idxs with
  | nil => exact ⟨[], rfl, rfl, by simp⟩
  | cons i rest ih =>
    obtain ⟨h0, hlt⟩ := hv i (by simp)
    obtain ⟨syms, hsyms, hlen, hval⟩ := ih (fun x hx => hv x (by simp [hx]))
    have hlt2 : i.toNat < p.symbols.length := by omega
    have hget : p.symbols.get? i.toNat = some (p.symbols.get ⟨i.toNat, hlt2⟩) :=
      List.get?_eq_get hlt2
    have hvalid : validSymbol (p.symbols.get ⟨i.toNat, hlt2⟩) = true := by
      have hall := (Bool.and_eq_true_iff.mp hwf).2
      exact List.all_eq_true.mp hall _ (p.symbols.get_mem _ _)
    refine ⟨p.symbols.get ⟨i.toNat, hlt2⟩ :: syms, ?_, by simp [hlen], ?_⟩
    · unfold get_particle_symbols at hsyms ⊢
      rw [List.mapM_cons, pyGet_nonneg _ _ h0, hget, hsyms]
      rfl
    · intro s hs
      rcases List.mem_cons.mp hs with rfl | hs2
      · exact hvalid
      · exact hval s hs2

theorem zipWith_append_as_pairs (syms : List (List Char)) (idxs : List Int) :
    List.zipWith (fun s idx => s ++ intDecimal idx) syms idxs
      = ((syms.zip idxs).map (fun pr => (pr.1, intDecimal pr.2))).map
          (fun pr => pr.1 ++ pr.2) := by
  induction syms generalizing idxs with
  | nil => cases idxs <;> rfl
  | cons s ss ih =>
    cases idxs with
    | nil => rfl
    | cons i is => simp [ih]

theorem map_snd_comp_zip {α β γ : Type} (f : β → γ) (l1 : List α) (l2 : List β)
    (hlen : l1.length = l2.length) :
    (l1.zip l2).map (fun pr => f pr.2) = l2.map f := by
  induction l1 generalizing l2 with
  | nil =>
    cases l2 with
    | nil => rfl
    | cons b bs => simp at hlen
  | cons a l1 ih =>
    cases l2 with
    | nil => simp at hlen
    | cons b bs =>
      simp only [List.zip_cons_cons, List.map_cons]
      rw [ih bs (by simpa using hlen)]

theorem map_congr_mem {α β : Type} (l : List α) (f g : α → β)
    (h : ∀ a ∈ l, f a = g a) : l.map f = l.map g := by
  induction l with
  | nil => rfl
  | cons a l ih =>
    simp only [List.map_cons]
    rw [h a (by simp), ih (fun b hb => h b (by simp [hb]))]

theorem intDecimal_nonneg {i : Int} (h0 : 0 ≤ i) :
    intDecimal i = natDecimal i.toNat := by
  unfold intDecimal
  rw [if_neg (by omega)]

/-- Digit runs of a generated identifier body: exactly the decimal
renderings of the indices, in order. -/
theorem digitGroups_gid_body (syms : List (List Char)) (idxs : List Int)
    (hlen : syms.length = idxs.length)
    (hvs : ∀ s ∈ syms, validSymbol s = true)
    (hnn : ∀ i ∈ idxs, 0 ≤ i) :
    digitGroups ((List.zipWith (fun s idx => s ++ intDecimal idx) syms idxs).flatten)
      = idxs.map (fun i => natDecimal i.toNat) := by
  rw [zipWith_append_as_pairs]
  unfold digitGroups
  rw [digitGroupsAux_blocks]
  · rw [List.map_map]
    have h2 : ((fun pr : List Char × List Char => pr.2) ∘
          (fun pr : List Char × Int => (pr.1, intDecimal pr.2)))
        = (fun pr : List Char × Int => intDecimal pr.2) := rfl
    rw [h2, map_snd_comp_zip intDecimal syms idxs hlen]
    apply map_congr_mem
    intro i hi
    exact intDecimal_nonneg (hnn i hi)
  · intro pr hpr
    simp only [List.mem_map] at hpr
    obtain ⟨⟨s, i⟩, hz, rfl⟩ := hpr
    have hs : s ∈ syms := (List.of_mem_zip hz).1
    have hi : i ∈ idxs := (List.of_mem_zip hz).2
    have hvalid := hvs s hs
    have h0 := hnn i hi
    refine ⟨validSymbol_ne_nil hvalid, validSymbol_no_digit hvalid, ?_, ?_⟩
    · rw [intDecimal_nonneg h0]
      exact natDecimal_ne_nil _
    · rw [intDecimal_nonneg h0]
      exact natDecimal_all_digits _

/-! ### Sample structures used for witnesses and counterexamples -/

/-- Single carbon atom at the origin. -/
def sampleC : Atoms := ⟨[['C']], [((0 : ℝ), 0, 0)]⟩

/-- Two atoms, a carbon and a hydrogen, one Angstrom apart. -/
def sampleCH : Atoms := ⟨[['C'], ['H']], [((0 : ℝ), 0, 0), ((1 : ℝ), 0, 0)]⟩

/-! ### Round-trip of the feature-name codec -/

theorem digitGroups_append_nonDigits (xs ys : List Char)
    (h : ∀ c ∈ xs, isDigitC c = false) :
    digitGroups (xs ++ ys) = digitGroups ys :=
  digitGroupsAux_nonDigits xs ys h

theorem digitGroups_single_run (ds : List Char) (hne : ds ≠ [])
    (h : ∀ c ∈ ds, isDigitC c = true) :
    digitGroups ds = [ds] := by
  unfold digitGroups
  have h1 := digitGroupsAux_digits ds h [] []
  rw [List.append_nil] at h1
  rw [h1]
  have h2 : digitGroupsAux [] (ds.reverse ++ []) = [(ds.reverse ++ []).reverse] := by
    unfold digitGroupsAux
    rw [if_neg (by simp [hne])]
  rw [h2]
  simp

/-- C1 (amended): for every well-formed structure, every non-empty tuple
of in-range non-negative atom indices and every NON-EMPTY prefix made of
lowercase ASCII letters and underscores, composing the feature name and
parsing it back recovers the prefix as the alias and the exact index
tuple, order and multiplicity preserved. -/
theorem feature_name_round_trip (p : Atoms) (idxs : List Int) (pfx : List Char)
    (hwf : p.WF = true) (hne : idxs ≠ [])
    (hv : ∀ i ∈ idxs, 0 ≤ i ∧ i < (p.symbols.length : Int))
    (hpfx : pfx ≠ []) (halias : ∀ c ∈ pfx, isAliasChar c = true) :
    ∃ name, composeFeatureName pfx p idxs = some name ∧
      parse_feature_name name = some ⟨name, pfx, idxs⟩ := by
  obtain ⟨syms, hsyms, hlen, hvs⟩ := get_particle_symbols_valid p hwf idxs hv
  refine ⟨pfx ++ (List.zipWith (fun s idx => s ++ intDecimal idx) syms idxs).flatten,
    ?_, ?_⟩
  · unfold composeFeatureName generate_feature_id
    rw [hsyms]
    rfl
  · have hbodyhead : ∃ c rest,
        (List.zipWith (fun s idx => s ++ intDecimal idx) syms idxs).flatten
          = c :: rest ∧ isUpperC c = true := by
      cases syms with
      | nil =>
        exfalso
        cases idxs with
        | nil => exact hne rfl
        | cons i is => simp at hlen
      | cons s ss =>
        cases idxs with
        | nil => exact absurd rfl hne
        | cons i is =>
          obtain ⟨c, cs, hs, hcup, _⟩ := validSymbol_cases (hvs s (by simp))
          refine ⟨c, cs ++ (intDecimal i
            ++ (List.zipWith (fun s idx => s ++ intDecimal idx) ss is).flatten),
            ?_, hcup⟩
          rw [hs]
          simp
    obtain ⟨c0, rest0, hb, hup⟩ := hbodyhead
    have hdg : digitGroups (pfx
        ++ (List.zipWith (fun s idx => s ++ intDecimal idx) syms idxs).flatten)
        = idxs.map (fun i => natDecimal i.toNat) := by
      rw [digitGroups_append_nonDigits _ _
        (fun c hc => isAliasChar_not_digit (halias c hc))]
      exact digitGroups_gid_body syms idxs hlen hvs (fun i hi => (hv i hi).1)
    have htw : (pfx
        ++ (List.zipWith (fun s idx => s ++ intDecimal idx) syms idxs).flatten).takeWhile
          isAliasChar = pfx := by
      rw [hb]
      exact takeWhile_append_head isAliasChar pfx c0 rest0 halias (isUpperC_not_alias hup)
    unfold parse_feature_name
    rw [htw, hdg, if_neg hpfx]
    have hmap : (idxs.map (fun i => natDecimal i.toNat)).map
        (fun g => (decimalToNat g : Int)) = idxs := by
      rw [List.map_map]
      have : ∀ i ∈ idxs,
          ((fun g => (decimalToNat g : Int)) ∘ (fun i : Int => natDecimal i.toNat)) i
            = i := by
        intro i hi
        simp only [Function.comp_apply]
        rw [decimalToNat_natDecimal]
        exact Int.toNat_of_nonneg (hv i hi).1
      exact map_eq_self_of idxs _ this
    rw [hmap]

/-- C1 witness: concrete round trip on the two-atom structure with
prefix `dst` and indices `(0, 1)`. -/
theorem feature_name_round_trip_wit :
    ∃ name, composeFeatureName ['d', 's', 't'] sampleCH [0, 1] = some name ∧
      parse_feature_name name = some ⟨name, ['d', 's', 't'], [0, 1]⟩ :=
  feature_name_round_trip sampleCH [0, 1] ['d', 's', 't'] (by decide) (by decide)
    (by decide) (by decide) (by decide)

/-- C1 counterexample: the round trip fails for the EMPTY prefix, which
is composed only of lowercase letters/underscores vacuously: the alias
regex of `parse_feature_name` does not match the composed name `C0`, so
the parser raises (`none`) instead of returning alias `""` and indices
`(0,)`. -/
theorem feature_name_round_trip_cex :
    composeFeatureName [] sampleC [0] = some ['C', '0'] ∧
    parse_feature_name ['C', '0'] = none := by
  constructor
  · decide
  · decide

/-- C7: a feature name whose first character is a lowercase letter or an
underscore and which contains no digit parses successfully to an empty
index tuple, with the maximal leading `[a-z_]` run as the alias. -/
theorem parse_pure_aggregate (c : Char) (cs : List Char)
    (hc : isAliasChar c = true)
    (hnod : ∀ x ∈ c :: cs, isDigitC x = false) :
    parse_feature_name (c :: cs)
      = some ⟨c :: cs, (c :: cs).takeWhile isAliasChar, []⟩ := by
  have hdg : digitGroups (c :: cs) = [] := by
    have h1 := digitGroupsAux_nonDigits (c :: cs) [] hnod
    rw [List.append_nil] at h1
    exact h1.trans rfl
  have htw : (c :: cs).takeWhile isAliasChar = c :: cs.takeWhile isAliasChar := by
    simp [List.takeWhile_cons, hc]
  unfold parse_feature_name
  rw [hdg, if_neg (by rw [htw]; simp)]
  rfl

/-- C7 witness: the pure aggregate name `benzene_dst` parses to an empty
index tuple with the whole name as alias. -/
theorem parse_pure_aggregate_wit :
    parse_feature_name ['b', 'e', 'n', 'z', 'e', 'n', 'e', '_', 'd', 's', 't']
      = some ⟨['b', 'e', 'n', 'z', 'e', 'n', 'e', '_', 'd', 's', 't'],
          ['b', 'e', 'n', 'z', 'e', 'n', 'e', '_', 'd', 's', 't'], []⟩ := by
  rw [parse_pure_aggregate 'b' ['e', 'n', 'z', 'e', 'n', 'e', '_', 'd', 's', 't']
    (by decide) (by decide)]
  decide

/-- C10: a feature name whose first character is not a lowercase ASCII
letter and not an underscore is rejected by the parser (the alias regex
does not match, so the call raises), digit runs notwithstanding. -/
theorem parse_bad_first_char (c : Char) (cs : List Char)
    (hc : isAliasChar c = false) :
    parse_feature_name (c :: cs) = none := by
  unfold parse_feature_name
  rw [if_pos (by simp [List.takeWhile_cons, hc])]

/-- C10 witness: `C0C1` (starting with an uppercase chemical symbol)
is rejected even though it contains digit runs. -/
theorem parse_bad_first_char_wit :
    parse_feature_name ['C', '0', 'C', '1'] = none :=
  parse_bad_first_char 'C' ['0', 'C', '1'] (by decide)

/-- C8: a negative index `idx` with `-n ≤ idx < 0` is not rejected:
symbol lookup wraps around to atom `n + idx`, the generated token embeds
the minus sign inside the name, and parsing the composed name recovers
the index WITHOUT its sign, so the round trip fails on tuples holding a
negative index. -/
theorem negative_index_round_trip_fails (p : Atoms) (idx : Int) (pfx : List Char)
    (hwf : p.WF = true)
    (hlow : -(p.symbols.length : Int) ≤ idx) (hneg : idx < 0)
    (hpfx : pfx ≠ []) (halias : ∀ c ∈ pfx, isAliasChar c = true) :
    ∃ s, pyGet p.symbols idx = some s ∧
      p.symbols.get? (idx + p.symbols.length).toNat = some s ∧
      composeFeatureName pfx p [idx] = some (pfx ++ (s ++ intDecimal idx)) ∧
      intDecimal idx = '-' :: natDecimal idx.natAbs ∧
      parse_feature_name (pfx ++ (s ++ intDecimal idx))
        = some ⟨pfx ++ (s ++ intDecimal idx), pfx, [(idx.natAbs : Int)]⟩ ∧
      ((idx.natAbs : Int) ≠ idx) := by
  have hn : 0 ≤ idx + (p.symbols.length : Int) := by omega
  have hlt : (idx + (p.symbols.length : Int)).toNat < p.symbols.length := by omega
  have hpy : pyGet p.symbols idx
      = p.symbols.get? (idx + (p.symbols.length : Int)).toNat := by
    unfold pyGet
    rw [if_neg (by omega), if_pos hn]
  set s := p.symbols.get ⟨(idx + (p.symbols.length : Int)).toNat, hlt⟩ with hsdef
  have hget : p.symbols.get? (idx + (p.symbols.length : Int)).toNat = some s :=
    List.get?_eq_get hlt
  have hvalid : validSymbol s = true := by
    have hall := (Bool.and_eq_true_iff.mp hwf).2
    exact List.all_eq_true.mp hall _ (p.symbols.get_mem _ _)
  have hint : intDecimal idx = '-' :: natDecimal idx.natAbs := by
    unfold intDecimal
    rw [if_pos hneg]
  have hgps : get_particle_symbols p [idx] = some [s] := by
    unfold get_particle_symbols
    rw [List.mapM_cons, hpy, hget]
    rfl
  refine ⟨s, by rw [hpy, hget], hget, ?_, hint, ?_, by omega⟩
  · unfold composeFeatureName generate_feature_id
    rw [hgps]
    simp
  · have hregroup : pfx ++ (s ++ intDecimal idx)
        = ((pfx ++ s) ++ ['-']) ++ natDecimal idx.natAbs := by
      rw [hint]
      simp
    have hnodig : ∀ c ∈ (pfx ++ s) ++ ['-'], isDigitC c = false := by
      intro c hcmem
      rcases List.mem_append.mp hcmem with h1 | h2
      · rcases List.mem_append.mp h1 with h3 | h4
        · exact isAliasChar_not_digit (halias c h3)
        · exact validSymbol_no_digit hvalid c h4
      · have : c = '-' := by simpa using h2
        subst this
        decide
    have hdg : digitGroups (pfx ++ (s ++ intDecimal idx))
        = [natDecimal idx.natAbs] := by
      rw [hregroup, digitGroups_append_nonDigits _ _ hnodig]
      exact digitGroups_single_run _ (natDecimal_ne_nil _) (natDecimal_all_digits _)
    obtain ⟨c0, cs0, hs0, hup0, _⟩ := validSymbol_cases hvalid
    have htw : (pfx ++ (s ++ intDecimal idx)).takeWhile isAliasChar = pfx := by
      rw [hs0, List.cons_append]
      exact takeWhile_append_head isAliasChar pfx c0 (cs0 ++ intDecimal idx) halias
        (isUpperC_not_alias hup0)
    unfold parse_feature_name
    rw [htw, hdg, if_neg hpfx]
    rw [List.map_cons, List.map_nil, decimalToNat_natDecimal]

/-- C8 witness: on the two-atom structure, index `-1` resolves to the
second atom (`H`), composes to `dstH-1`, and parses back to `(1,)`,
not `(-1,)`. -/
theorem negative_index_round_trip_fails_wit :
    ∃ s, pyGet sampleCH.symbols (-1) = some s ∧
      sampleCH.symbols.get? ((-1) + (sampleCH.symbols.length : Int)).toNat = some s ∧
      composeFeatureName ['d', 's', 't'] sampleCH [-1]
        = some (['d', 's', 't'] ++ (s ++ intDecimal (-1))) ∧
      intDecimal (-1) = '-' :: natDecimal (Int.natAbs (-1)) ∧
      parse_feature_name (['d', 's', 't'] ++ (s ++ intDecimal (-1)))
        = some ⟨['d', 's', 't'] ++ (s ++ intDecimal (-1)), ['d', 's', 't'],
            [(Int.natAbs (-1) : Int)]⟩ ∧
      ((Int.natAbs (-1) : Int) ≠ -1) :=
  negative_index_round_trip_fails sampleCH (-1) ['d', 's', 't'] (by decide)
    (by decide) (by decide) (by decide) (by decide)

/-! ### Vector algebra helpers

Model of the `Lin. alg. helpers` section of the source:
`unit_vector`, `cos_between`, `angle_between`, `cos_to_angle`, and of the
numpy primitives (`np.cross`, `np.linalg.norm`, `np.mean`) they rely
on.  Machine floats are modelled as real numbers. -/

/-- Dot product of two 3-vectors (`np.dot`). -/
def dot3 (v w : Vec3) : ℝ := v.1 * w.1 + v.2.1 * w.2.1 + v.2.2 * w.2.2

/-- Componentwise difference of two 3-vectors. -/
def sub3 (v w : Vec3) : Vec3 := (v.1 - w.1, v.2.1 - w.2.1, v.2.2 - w.2.2)

/-- Componentwise negation of a 3-vector. -/
def neg3 (v : Vec3) : Vec3 := (-v.1, -v.2.1, -v.2.2)

/-- Cross product of two 3-vectors (`np.cross`). -/
def cross3 (v w : Vec3) : Vec3 :=
  (v.2.1 * w.2.2 - v.2.2 * w.2.1,
   v.2.2 * w.1 - v.1 * w.2.2,
   v.1 * w.2.1 - v.2.1 * w.1)

/-- Euclidean norm (`np.linalg.norm`). -/
noncomputable def norm3 (v : Vec3) : ℝ := Real.sqrt (dot3 v v)

/-- Model of `unit_vector`: `vector / np.linalg.norm(vector)`. -/
noncomputable def unit_vector (v : Vec3) : Vec3 :=
  (v.1 / norm3 v, v.2.1 / norm3 v, v.2.2 / norm3 v)

/-- Model of `cos_between`: dot product of the two unit vectors. -/
noncomputable def cos_between (v1 v2 : Vec3) : ℝ :=
  dot3 (unit_vector v1) (unit_vector v2)

/-- Model of `cos_to_angle`: `np.arccos(np.clip(cos, -1.0, 1.0))`. -/
noncomputable def cos_to_angle (cos : ℝ) : ℝ :=
  Real.arccos (min 1 (max (-1) cos))

/-- Model of `angle_between`: radians in `[0, π]`. -/
noncomputable def angle_between (v1 v2 : Vec3) : ℝ :=
  cos_to_angle (cos_between v1 v2)

/-! ### Geometric feature functions -/

/-- Modelled from the spec: `ase.Atoms.get_distance` (library code, not
in the repository) — Euclidean distance between atoms `i` and `j`, with
numpy index semantics (bounds-checked, negative wrap) on the positions
array. -/
noncomputable def get_distance (p : Atoms) (i j : Int) : Option ℝ := do
  let a ← pyGet p.positions i
  let b ← pyGet p.positions j
  pure (norm3 (sub3 b a))

/-- Modelled from the spec: `ase.Atoms.get_angle` (library code, not in
the repository) — angle at vertex `j` between the rays towards `i` and
`k`: inverse cosine of the clamped cosine, radians in `[0, π]`, with
bounds-checked position lookups. -/
noncomputable def get_angle (p : Atoms) (i j k : Int) : Option ℝ := do
  let a ← pyGet p.positions i
  let b ← pyGet p.positions j
  let c ← pyGet p.positions k
  pure (angle_between (sub3 a b) (sub3 c b))

/-- Modelled from the spec: `ase.Atoms.get_dihedral` (library code, not
in the repository) — torsion angle about the `j`–`k` axis between the
normals of planes `(i,j,k)` and `(j,k,l)`; the spec leaves the exact
sign/range convention open, and only the bounds-checked position
lookups matter to the claims below. -/
noncomputable def get_dihedral (p : Atoms) (i j k l : Int) : Option ℝ := do
  let a ← pyGet p.positions i
  let b ← pyGet p.positions j
  let c ← pyGet p.positions k
  let d ← pyGet p.positions l
  pure (angle_between (cross3 (sub3 a b) (sub3 c b)) (cross3 (sub3 b c) (sub3 d c)))

/-- Mean position of a group of atoms; model of
`np.mean(particle.positions[idxs], axis=0)`. -/
noncomputable def mean3 (l : List Vec3) : Vec3 :=
  ((l.map (fun v => v.1)).sum / l.length,
   (l.map (fun v => v.2.1)).sum / l.length,
   (l.map (fun v => v.2.2)).sum / l.length)

/-- Model of `get_benzene_dst`: distance between the centroids of the
two index groups (numpy fancy indexing raises on out-of-range
indices). -/
noncomputable def get_benzene_dst (p : Atoms) (benzene1_idxs benzene2_idxs : List Int) :
    Option ℝ := do
  let l1 ← benzene1_idxs.mapM (fun idx => pyGet p.positions idx)
  let l2 ← benzene2_idxs.mapM (fun idx => pyGet p.positions idx)
  pure (norm3 (sub3 (mean3 l1) (mean3 l2)))

/-- Model of `calculate_perpendicular_vector`: cross product of the two
edge vectors of the 3-index plane definition. -/
noncomputable def calculate_perpendicular_vector (p : Atoms)
    (plane_idxs : Int × Int × Int) : Option Vec3 := do
  let v0 ← pyGet p.positions plane_idxs.1
  let v1 ← pyGet p.positions plane_idxs.2.1
  let v2 ← pyGet p.positions plane_idxs.2.2
  pure (cross3 (sub3 v0 v1) (sub3 v2 v1))

/-- Model of `cos_between_planes`: cosine between the two plane
normals. -/
noncomputable def cos_between_planes (p : Atoms)
    (plane1_idxs plane2_idxs : Int × Int × Int) : Option ℝ := do
  let n1 ← calculate_perpendicular_vector p plane1_idxs
  let n2 ← calculate_perpendicular_vector p plane2_idxs
  pure (cos_between n1 n2)

/-- Per-particle value of `add_benzene_cossq_feature`:
`cos_between_planes(p, benzene1_idxs, benzene2_idxs) ** 2`. -/
noncomputable def benzene_cossq (p : Atoms) (plane1_idxs plane2_idxs : Int × Int × Int) :
    Option ℝ :=
  (cos_between_planes p plane1_idxs plane2_idxs).map (fun c => c ^ 2)

/-! ### Sign-flip invariance of the inter-plane cosine square -/

theorem norm3_neg3 (v : Vec3) : norm3 (neg3 v) = norm3 v := by
  unfold norm3 dot3 neg3
  congr 1
  ring

theorem cross3_anticomm (v w : Vec3) : cross3 w v = neg3 (cross3 v w) := by
  unfold cross3 neg3
  refine Prod.ext ?_ (Prod.ext ?_ ?_) <;> simp <;> ring

theorem cos_between_neg_left (v w : Vec3) :
    cos_between (neg3 v) w = -cos_between v w := by
  unfold cos_between unit_vector dot3
  rw [norm3_neg3]
  unfold neg3
  simp
  ring

theorem cos_between_neg_right (v w : Vec3) :
    cos_between v (neg3 w) = -cos_between v w := by
  unfold cos_between unit_vector dot3
  rw [norm3_neg3]
  unfold neg3
  simp
  ring

theorem cossq_neg_left (v w : Vec3) :
    cos_between (neg3 v) w ^ 2 = cos_between v w ^ 2 := by
  rw [cos_between_neg_left]
  ring

theorem cossq_neg_right (v w : Vec3) :
    cos_between v (neg3 w) ^ 2 = cos_between v w ^ 2 := by
  rw [cos_between_neg_right]
  ring

/-- Swapping the first and third defining index of a plane negates the
computed normal vector. -/
theorem perp_swap (p : Atoms) (a b c : Int) :
    calculate_perpendicular_vector p (c, b, a)
      = (calculate_perpendicular_vector p (a, b, c)).map neg3 := by
  unfold calculate_perpendicular_vector
  rcases hA : pyGet p.positions a with _ | va <;>
    rcases hB : pyGet p.positions b with _ | vb <;>
    rcases hC : pyGet p.positions c with _ | vc <;>
    simp
  exact cross3_anticomm _ _

/-- C5: the squared inter-plane cosine feature of
`add_benzene_cossq_feature` is invariant under reversing either plane's
index triple (which negates that plane's normal), and, at the vector
level, under negating either normal. -/
theorem benzene_cossq_sign_invariant (p : Atoms) (a b c : Int) (q : Int × Int × Int) :
    benzene_cossq p (c, b, a) q = benzene_cossq p (a, b, c) q ∧
    benzene_cossq p q (c, b, a) = benzene_cossq p q (a, b, c) ∧
    (∀ v w : Vec3, cos_between (neg3 v) w ^ 2 = cos_between v w ^ 2) ∧
    (∀ v w : Vec3, cos_between v (neg3 w) ^ 2 = cos_between v w ^ 2) := by
  refine ⟨?_, ?_, cossq_neg_left, cossq_neg_right⟩
  · unfold benzene_cossq cos_between_planes
    rw [perp_swap p a b c]
    rcases h1 : calculate_perpendicular_vector p (a, b, c) with _ | n1
    · rfl
    rcases h2 : calculate_perpendicular_vector p q with _ | n2
    · rfl
    show some (cos_between (neg3 n1) n2 ^ 2) = some (cos_between n1 n2 ^ 2)
    rw [cossq_neg_left]
  · unfold benzene_cossq cos_between_planes
    rw [perp_swap p a b c]
    rcases h1 : calculate_perpendicular_vector p q with _ | n1
    · rfl
    rcases h2 : calculate_perpendicular_vector p (a, b, c) with _ | n2
    · rfl
    show some (cos_between n1 (neg3 n2) ^ 2) = some (cos_between n1 n2 ^ 2)
    rw [cossq_neg_right]

/-! ### The angle feature: range and a concrete square -/

/-- Four-atom structure with symbols C, C, H, H at the corners of a unit
square in the z = 0 plane. -/
def squareCCHH : Atoms :=
  ⟨[['C'], ['C'], ['H'], ['H']],
   [((0 : ℝ), 0, 0), ((1 : ℝ), 0, 0), ((1 : ℝ), 1, 0), ((0 : ℝ), 1, 0)]⟩

/-- C2: every defined angle feature value lies in `[0, π]` radians, and
on the concrete C,C,H,H unit square the angle at atom 1 between the
rays towards atoms 0 and 2 is exactly `π / 2`. -/
theorem get_angle_range_and_square (p : Atoms) (i j k : Int) :
    (∀ θ : ℝ, get_angle p i j k = some θ → 0 ≤ θ ∧ θ ≤ Real.pi) ∧
    get_angle squareCCHH 0 1 2 = some (Real.pi / 2) := by
  constructor
  · intro θ h
    unfold get_angle at h
    rcases hA : pyGet p.positions i with _ | va
    · rw [hA] at h
      exact absurd (show (none : Option ℝ) = some θ from h) (by simp)
    rcases hB : pyGet p.positions j with _ | vb
    · rw [hA, hB] at h
      exact absurd (show (none : Option ℝ) = some θ from h) (by simp)
    rcases hC : pyGet p.positions k with _ | vc
    · rw [hA, hB, hC] at h
      exact absurd (show (none : Option ℝ) = some θ from h) (by simp)
    rw [hA, hB, hC] at h
    have h2 : some (angle_between (sub3 va vb) (sub3 vc vb)) = some θ := h
    have h3 := Option.some.inj h2
    subst h3
    unfold angle_between cos_to_angle
    exact ⟨Real.arccos_nonneg _, Real.arccos_le_pi _⟩
  · have hsub1 : sub3 ((0 : ℝ), 0, 0) ((1 : ℝ), 0, 0) = ((-1 : ℝ), 0, 0) := by
      unfold sub3
      norm_num [Prod.ext_iff]
    have hsub2 : sub3 ((1 : ℝ), 1, 0) ((1 : ℝ), 0, 0) = ((0 : ℝ), 1, 0) := by
      unfold sub3
      norm_num [Prod.ext_iff]
    have hn1 : norm3 ((-1 : ℝ), 0, 0) = 1 := by
      unfold norm3
      rw [show dot3 ((-1 : ℝ), 0, 0) ((-1 : ℝ), 0, 0) = 1 by unfold dot3; norm_num]
      exact Real.sqrt_one
    have hn2 : norm3 ((0 : ℝ), 1, 0) = 1 := by
      unfold norm3
      rw [show dot3 ((0 : ℝ), 1, 0) ((0 : ℝ), 1, 0) = 1 by unfold dot3; norm_num]
      exact Real.sqrt_one
    have hcos : cos_between ((-1 : ℝ), 0, 0) ((0 : ℝ), 1, 0) = 0 := by
      unfold cos_between unit_vector
      rw [hn1, hn2]
      unfold dot3
      norm_num
    have hang : angle_between ((-1 : ℝ), 0, 0) ((0 : ℝ), 1, 0) = Real.pi / 2 := by
      unfold angle_between
      rw [hcos]
      unfold cos_to_angle
      rw [show min 1 (max (-1) (0 : ℝ)) = 0 by norm_num, Real.arccos_zero]
    show some (angle_between (sub3 ((0 : ℝ), 0, 0) ((1 : ℝ), 0, 0))
        (sub3 ((1 : ℝ), 1, 0) ((1 : ℝ), 0, 0))) = some (Real.pi / 2)
    rw [hsub1, hsub2, hang]

/-- C2 witness: the range bound instantiated on the concrete square with
the concrete value `π / 2`. -/
theorem get_angle_range_wit : 0 ≤ Real.pi / 2 ∧ Real.pi / 2 ≤ Real.pi :=
  (get_angle_range_and_square squareCCHH 0 1 2).1 (Real.pi / 2)
    (get_angle_range_and_square squareCCHH 0 1 2).2

/-! ### Data-frame model

Model of the pandas interface used by the feature extractors: a table
with integer row labels and an ordered list of named columns.  Column
assignment `df[name] = values` overwrites an existing column in place
or appends a new one at the end; `df.loc[0, "obj"]` looks the row up by
LABEL `0`, not by position. -/

/-- Python exceptions raised by the embedded operations. -/
inductive PyError where
  | valueErrorNoObjColumn
  | valueErrorEmptyObjColumn
  | valueErrorNotAtomsType
  | keyError
  | indexError
  | attributeError
deriving DecidableEq

/-- Validation errors (Python `ValueError`), as raised by `__check_df`. -/
def PyError.isValueError : PyError → Bool
  | .valueErrorNoObjColumn => true
  | .valueErrorEmptyObjColumn => true
  | .valueErrorNotAtomsType => true
  | _ => false

/-- One cell of the table: a structure object or a float. -/
inductive Cell where
  | atoms (a : Atoms)
  | real (x : ℝ)

/-- Whether a cell holds an `ase.atoms.Atoms` object (the `isinstance`
check of `__check_df`). -/
def Cell.isAtoms : Cell → Bool
  | .atoms _ => true
  | .real _ => false

/-- The structure held by a cell, when there is one. -/
def Cell.toAtoms : Cell → Option Atoms
  | .atoms a => some a
  | .real _ => none

/-- Column-oriented pandas data frame with integer row labels. -/
structure DataFrame where
  index : List Int
  cols : List (List Char × List Cell)

/-- The structure column name `"obj"`. -/
def objName : List Char := ['o', 'b', 'j']

/-- Lookup of a column by name (`df[name]` as a read). -/
def getCol (df : DataFrame) (name : List Char) : Option (List Cell) :=
  (df.cols.find? (fun c => c.1 == name)).map (fun c => c.2)

/-- Model of column assignment `df[name] = values`: overwrite an
existing column in place, or append a new one at the end. -/
def setCol (df : DataFrame) (name : List Char) (vals : List Cell) : DataFrame :=
  if df.cols.any (fun c => c.1 == name) then
    ⟨df.index, df.cols.map (fun c => if c.1 == name then (name, vals) else c)⟩
  else ⟨df.index, df.cols ++ [(name, vals)]⟩

/-- Model of `df.loc[0, "obj"]`: lookup by row LABEL `0` (a `KeyError`
when the label is absent). -/
def locRow0 (df : DataFrame) : Option Cell :=
  (df.index.findIdx? (fun l => l == 0)).bind
    (fun pos => (getCol df objName).bind (fun col => col.get? pos))

/-- Model of `__check_df`; the `isinstance(df, pd.DataFrame)` check is
enforced by the embedding's types. -/
def checkDf (df : DataFrame) : Except PyError Unit :=
  match getCol df objName with
  | none => .error .valueErrorNoObjColumn
  | some col =>
    if col.length < 1 then .error .valueErrorEmptyObjColumn
    else if col.all Cell.isAtoms then .ok ()
    else .error .valueErrorNotAtomsType

/-- Model of the `assert_proper_input("df", __check_df)` decorator: run
the checker on the `df` argument, propagate its error without touching
the table, otherwise run the wrapped function. -/
def assert_proper_input (check : DataFrame → Except PyError Unit)
    (f : DataFrame → Except PyError Unit × DataFrame) (df : DataFrame) :
    Except PyError Unit × DataFrame :=
  match check df with
  | .error e => (.error e, df)
  | .ok _ => f df

/-- One cell of `df["obj"].apply(lambda p: func(p, *idxs))`: a
non-`Atoms` cell raises `AttributeError`, a failing geometric function
raises `IndexError`. -/
def applyCell (f : Atoms → Option ℝ) (cell : Cell) : Except PyError ℝ :=
  match cell.toAtoms with
  | none => .error .attributeError
  | some p =>
    match f p with
    | none => .error .indexError
    | some x => .ok x

/-- Model of `df["obj"].apply(...)`: the whole column is computed before
any assignment happens, and the first failing row aborts the call. -/
def computeColumn (cells : List Cell) (f : Atoms → Option ℝ) :
    Except PyError (List ℝ) :=
  cells.mapM (applyCell f)

/-- Continuation of `__add_universal_feature` once the reference
structure (from the row labelled `0`) is at hand: generate the feature
name, compute the whole column, then perform the single assignment. -/
def addUnivStep2 (df : DataFrame) (func : Atoms → List Int → Option ℝ)
    (pfx : List Char) (idxs : List Int) (particle : Atoms) :
    Except PyError Unit × DataFrame :=
  match generate_feature_id particle idxs with
  | none => (.error .indexError, df)
  | some gid =>
    match getCol df objName with
    | none => (.error .keyError, df)
    | some cells =>
      match computeColumn cells (fun p => func p idxs) with
      | .error e => (.error e, df)
      | .ok vals => (.ok (), setCol df (pfx ++ gid) (vals.map Cell.real))

/-- Model of `__add_universal_feature`: name generation from the row
labelled `0`, then the row-wise application, then the single column
assignment.  The first component is the call's outcome, the second the
table after the call (unchanged on every error path, because the
assignment only happens after the whole right-hand side is computed). -/
def addUniversalFeature (df : DataFrame) (func : Atoms → List Int → Option ℝ)
    (pfx : List Char) (idxs : List Int) : Except PyError Unit × DataFrame :=
  match locRow0 df with
  | none => (.error .keyError, df)
  | some cell =>
    match cell.toAtoms with
    | none => (.error .attributeError, df)
    | some particle => addUnivStep2 df func pfx idxs particle

/-- Alias prefix of the angle feature. -/
def angPfx : List Char := ['a', 'n', 'g']

/-- Alias prefix of the dihedral feature. -/
def dihPfx : List Char := ['d', 'i', 'h']

/-- Alias prefix of the distance feature. -/
def dstPfx : List Char := ['d', 's', 't']

/-- Column name of the benzene-distance feature. -/
def benzeneDstName : List Char := ['b', 'e', 'n', 'z', 'e', 'n', 'e', '_', 'd', 's', 't']

/-- Column name of the benzene cosine-square feature. -/
def benzeneCossqName : List Char :=
  ['b', 'e', 'n', 'z', 'e', 'n', 'e', '_', 'c', 'o', 's', 's', 'q']

/-- `ase.Atoms.get_distance` applied to the star-args index list. -/
noncomputable def dstApply (p : Atoms) (idxs : List Int) : Option ℝ :=
  match idxs with
  | [i, j] => get_distance p i j
  | _ => none

/-- `ase.Atoms.get_angle` applied to the star-args index list. -/
noncomputable def angApply (p : Atoms) (idxs : List Int) : Option ℝ :=
  match idxs with
  | [i, j, k] => get_angle p i j k
  | _ => none

/-- `ase.Atoms.get_dihedral` applied to the star-args index list. -/
noncomputable def dihApply (p : Atoms) (idxs : List Int) : Option ℝ :=
  match idxs with
  | [i, j, k, l] => get_dihedral p i j k l
  | _ => none

/-- Model of `add_ang_feature` (with its decorator). -/
noncomputable def add_ang_feature (df : DataFrame) (idx1 idx2 idx3 : Int) :
    Except PyError Unit × DataFrame :=
  assert_proper_input checkDf
    (fun df => addUniversalFeature df angApply angPfx [idx1, idx2, idx3]) df

/-- Model of `add_dih_feature` (with its decorator). -/
noncomputable def add_dih_feature (df : DataFrame) (idx1 idx2 idx3 idx4 : Int) :
    Except PyError Unit × DataFrame :=
  assert_proper_input checkDf
    (fun df => addUniversalFeature df dihApply dihPfx [idx1, idx2, idx3, idx4]) df

/-- Model of `add_dst_feature` (with its decorator). -/
noncomputable def add_dst_feature (df : DataFrame) (idx1 idx2 : Int) :
    Except PyError Unit × DataFrame :=
  assert_proper_input checkDf
    (fun df => addUniversalFeature df dstApply dstPfx [idx1, idx2]) df

/-- Model of `add_benzene_dst_feature` (with its decorator): directly
assigns the fixed column name `benzene_dst`. -/
noncomputable def add_benzene_dst_feature (df : DataFrame)
    (benzene1_idxs benzene2_idxs : List Int) : Except PyError Unit × DataFrame :=
  assert_proper_input checkDf
    (fun df =>
      match getCol df objName with
      | none => (.error .keyError, df)
      | some cells =>
        match computeColumn cells
            (fun p => get_benzene_dst p benzene1_idxs benzene2_idxs) with
        | .error e => (.error e, df)
        | .ok vals => (.ok (), setCol df benzeneDstName (vals.map Cell.real))) df

/-- Model of `add_benzene_cossq_feature` (with its decorator): directly
assigns the fixed column name `benzene_cossq`. -/
noncomputable def add_benzene_cossq_feature (df : DataFrame)
    (benzene1_idxs benzene2_idxs : Int × Int × Int) : Except PyError Unit × DataFrame :=
  assert_proper_input checkDf
    (fun df =>
      match getCol df objName with
      | none => (.error .keyError, df)
      | some cells =>
        match computeColumn cells
            (fun p => benzene_cossq p benzene1_idxs benzene2_idxs) with
        | .error e => (.error e, df)
        | .ok vals => (.ok (), setCol df benzeneCossqName (vals.map Cell.real))) df

/-- Number of atoms of a structure (`len(atoms)`). -/
def atomCount (p : Atoms) : Nat := p.positions.length

/-! ### Validation before mutation (`__check_df` + decorator) -/

/-- Precondition violation of the Tabular Feature Builder: the structure
column is missing, empty, or holds a non-structure entry. -/
def dfInvalid (df : DataFrame) : Prop :=
  getCol df objName = none ∨
  getCol df objName = some [] ∨
  (∃ col cell, getCol df objName = some col ∧ cell ∈ col ∧ cell.isAtoms = false)

theorem checkDf_error_of_invalid (df : DataFrame) (h : dfInvalid df) :
    ∃ e, checkDf df = .error e ∧ e.isValueError = true := by
  unfold checkDf
  rcases h with h1 | h2 | ⟨col, cell, hcol, hmem, hbad⟩
  · rw [h1]
    exact ⟨.valueErrorNoObjColumn, rfl, rfl⟩
  · rw [h2]
    exact ⟨.valueErrorEmptyObjColumn, rfl, rfl⟩
  · have hred : (match getCol df objName with
        | none => Except.error PyError.valueErrorNoObjColumn
        | some col =>
          if col.length < 1 then Except.error PyError.valueErrorEmptyObjColumn
          else if col.all Cell.isAtoms then Except.ok ()
          else Except.error PyError.valueErrorNotAtomsType)
        = (if col.length < 1 then Except.error PyError.valueErrorEmptyObjColumn
           else if col.all Cell.isAtoms then Except.ok ()
           else Except.error PyError.valueErrorNotAtomsType) := by
      rw [hcol]
    rw [hred]
    have hpos : 0 < col.length := List.length_pos.mpr (List.ne_nil_of_mem hmem)
    rw [if_neg (by omega)]
    have hnall : ¬ (col.all Cell.isAtoms = true) := by
      intro hall
      have hcell := List.all_eq_true.mp hall cell hmem
      rw [hbad] at hcell
      exact Bool.noConfusion hcell
    rw [if_neg hnall]
    exact ⟨.valueErrorNotAtomsType, rfl, rfl⟩

theorem assert_proper_input_error (df : DataFrame) (e : PyError)
    (he : checkDf df = .error e) (f : DataFrame → Except PyError Unit × DataFrame) :
    assert_proper_input checkDf f df = (.error e, df) := by
  unfold assert_proper_input
  rw [he]

theorem assert_proper_input_ok (df : DataFrame)
    (he : checkDf df = .ok ()) (f : DataFrame → Except PyError Unit × DataFrame) :
    assert_proper_input checkDf f df = f df := by
  unfold assert_proper_input
  rw [he]

/-- C3: on a table whose structure column is missing, empty or holds a
non-structure entry, every decorated add-feature operation fails with a
validation error raised before any mutation, and returns the table
unchanged (same columns, same values). -/
theorem add_feature_validation_atomic (df : DataFrame) (h : dfInvalid df) :
    ∃ e, PyError.isValueError e = true ∧
      (∀ i1 i2 i3 : Int, add_ang_feature df i1 i2 i3 = (.error e, df)) ∧
      (∀ i1 i2 i3 i4 : Int, add_dih_feature df i1 i2 i3 i4 = (.error e, df)) ∧
      (∀ i1 i2 : Int, add_dst_feature df i1 i2 = (.error e, df)) ∧
      (∀ g1 g2 : List Int, add_benzene_dst_feature df g1 g2 = (.error e, df)) ∧
      (∀ t1 t2 : Int × Int × Int, add_benzene_cossq_feature df t1 t2 = (.error e, df)) := by
  obtain ⟨e, he, hev⟩ := checkDf_error_of_invalid df h
  refine ⟨e, hev, fun i1 i2 i3 => ?_, fun i1 i2 i3 i4 => ?_, fun i1 i2 => ?_,
    fun g1 g2 => ?_, fun t1 t2 => ?_⟩
  · unfold add_ang_feature
    exact assert_proper_input_error df e he _
  · unfold add_dih_feature
    exact assert_proper_input_error df e he _
  · unfold add_dst_feature
    exact assert_proper_input_error df e he _
  · unfold add_benzene_dst_feature
    exact assert_proper_input_error df e he _
  · unfold add_benzene_cossq_feature
    exact assert_proper_input_error df e he _

/-- Table without a structure column, used as the C3 witness input. -/
def dfNoObj : DataFrame := ⟨[0], [(['x'], [Cell.real 0])]⟩

/-- C3 witness: on the concrete table without an `obj` column every
add-feature operation fails with a validation error and the table stays
untouched. -/
theorem add_feature_validation_atomic_wit :
    ∃ e, PyError.isValueError e = true ∧
      (∀ i1 i2 i3 : Int, add_ang_feature dfNoObj i1 i2 i3 = (.error e, dfNoObj)) ∧
      (∀ i1 i2 i3 i4 : Int, add_dih_feature dfNoObj i1 i2 i3 i4 = (.error e, dfNoObj)) ∧
      (∀ i1 i2 : Int, add_dst_feature dfNoObj i1 i2 = (.error e, dfNoObj)) ∧
      (∀ g1 g2 : List Int, add_benzene_dst_feature dfNoObj g1 g2 = (.error e, dfNoObj)) ∧
      (∀ t1 t2 : Int × Int × Int,
        add_benzene_cossq_feature dfNoObj t1 t2 = (.error e, dfNoObj)) :=
  add_feature_validation_atomic dfNoObj (Or.inl rfl)

/-! ### Name generation reads the row labelled 0 -/

theorem findIdx?_beq0_none (l : List Int) (h : (0 : Int) ∉ l) :
    ∀ i, List.findIdx? (fun x => x == 0) l i = none := by
  induction l with
  | nil => intro i; rfl
  | cons x xs ih =>
    intro i
    have hx0 : x ≠ 0 := fun hh => h (by simp [hh])
    have hx : (x == 0) = false := by
      rw [Bool.eq_false_iff]
      intro hc
      exact hx0 (by simpa using hc)
    simp only [List.findIdx?, hx, Bool.false_eq_true, if_false]
    exact ih (fun hm => h (by simp [hm])) (i + 1)

theorem locRow0_none_of_no_label0 (df : DataFrame) (h : (0 : Int) ∉ df.index) :
    locRow0 df = none := by
  unfold locRow0
  rw [findIdx?_beq0_none df.index h 0]
  rfl

/-- C9: the feature name is generated from the row whose index LABEL is
0; on a table that passes validation but whose index lacks the label 0,
every universal add-feature operation raises a lookup error (KeyError)
and adds no column. -/
theorem add_feature_missing_label0 (df : DataFrame)
    (hok : checkDf df = .ok ()) (h0 : (0 : Int) ∉ df.index) :
    (∀ i1 i2 i3 : Int, add_ang_feature df i1 i2 i3 = (.error .keyError, df)) ∧
    (∀ i1 i2 i3 i4 : Int, add_dih_feature df i1 i2 i3 i4 = (.error .keyError, df)) ∧
    (∀ i1 i2 : Int, add_dst_feature df i1 i2 = (.error .keyError, df)) := by
  have hlo := locRow0_none_of_no_label0 df h0
  have huniv : ∀ (func : Atoms → List Int → Option ℝ) (pfx : List Char) (idxs : List Int),
      addUniversalFeature df func pfx idxs = (.error .keyError, df) := by
    intro func pfx idxs
    unfold addUniversalFeature
    rw [hlo]
  refine ⟨fun i1 i2 i3 => ?_, fun i1 i2 i3 i4 => ?_, fun i1 i2 => ?_⟩
  · unfold add_ang_feature
    rw [assert_proper_input_ok df hok]
    exact huniv _ _ _
  · unfold add_dih_feature
    rw [assert_proper_input_ok df hok]
    exact huniv _ _ _
  · unfold add_dst_feature
    rw [assert_proper_input_ok df hok]
    exact huniv _ _ _

/-- Valid one-row table whose single row label is 1 (no label 0). -/
def dfLabel1 : DataFrame := ⟨[1], [(objName, [Cell.atoms sampleC])]⟩

/-- C9 witness: the concrete re-labelled table passes validation, yet
every universal add-feature call fails with a KeyError and leaves the
table unchanged. -/
theorem add_feature_missing_label0_wit :
    (∀ i1 i2 i3 : Int, add_ang_feature dfLabel1 i1 i2 i3 = (.error .keyError, dfLabel1)) ∧
    (∀ i1 i2 i3 i4 : Int,
      add_dih_feature dfLabel1 i1 i2 i3 i4 = (.error .keyError, dfLabel1)) ∧
    (∀ i1 i2 : Int, add_dst_feature dfLabel1 i1 i2 = (.error .keyError, dfLabel1)) :=
  add_feature_missing_label0 dfLabel1 rfl (by decide)

/-! ### Atomicity under index-out-of-range -/

theorem pyGet_oob {α : Type} (l : List α) (i : Int) (h : (l.length : Int) ≤ i) :
    pyGet l i = none := by
  unfold pyGet
  rw [if_pos (by omega)]
  exact List.get?_eq_none.mpr (by omega)

theorem get_distance_oob (p : Atoms) (i j : Int)
    (h : (p.positions.length : Int) ≤ i ∨ (p.positions.length : Int) ≤ j) :
    get_distance p i j = none := by
  unfold get_distance
  rcases h with hi | hj
  · rw [pyGet_oob _ _ hi]
    rfl
  · rcases hA : pyGet p.positions i with _ | va
    · rfl
    rw [pyGet_oob _ _ hj]
    rfl

theorem get_angle_oob (p : Atoms) (i j k : Int)
    (h : (p.positions.length : Int) ≤ i ∨ (p.positions.length : Int) ≤ j ∨
      (p.positions.length : Int) ≤ k) :
    get_angle p i j k = none := by
  unfold get_angle
  rcases h with hi | hj | hk
  · rw [pyGet_oob _ _ hi]
    rfl
  · rcases hA : pyGet p.positions i with _ | va
    · rfl
    rw [pyGet_oob _ _ hj]
    rfl
  · rcases hA : pyGet p.positions i with _ | va
    · rfl
    rcases hB : pyGet p.positions j with _ | vb
    · rfl
    rw [pyGet_oob _ _ hk]
    rfl

theorem findIdx?_beq0_some (l : List Int) (h : (0 : Int) ∈ l) :
    ∀ i, ∃ pos, List.findIdx? (fun x => x == 0) l i = some pos := by
  induction l with
  | nil => exact absurd h (by simp)
  | cons x xs ih =>
    intro i
    by_cases hx : x = 0
    · refine ⟨i, ?_⟩
      simp only [List.findIdx?, hx]
      rfl
    · have hmem : (0 : Int) ∈ xs := by
        rcases List.mem_cons.mp h with h1 | h2
        · exact absurd h1.symm hx
        · exact h2
      obtain ⟨pos, hpos⟩ := ih hmem (i + 1)
      refine ⟨pos, ?_⟩
      have hxb : (x == 0) = false := by
        rw [Bool.eq_false_iff]
        intro hc
        exact hx (by simpa using hc)
      simp only [List.findIdx?, hxb, Bool.false_eq_true, if_false]
      exact hpos

theorem findIdx?_some_bound {α : Type} (p : α → Bool) (l : List α) :
    ∀ i pos, List.findIdx? p l i = some pos → i ≤ pos ∧ pos - i < l.length := by
  induction l with
  | nil =>
    intro i pos h
    exact absurd h (by simp [List.findIdx?])
  | cons x xs ih =>
    intro i pos h
    by_cases hx : p x = true
    · simp only [List.findIdx?, hx, if_true] at h
      have : i = pos := Option.some.inj h
      subst this
      simp
    · have hxb : p x = false := by
        rw [Bool.eq_false_iff]
        exact hx
      simp only [List.findIdx?, hxb, Bool.false_eq_true, if_false] at h
      obtain ⟨h1, h2⟩ := ih (i + 1) pos h
      constructor
      · omega
      · simp only [List.length_cons]
        omega

theorem checkDf_ok_spec (df : DataFrame) (col : List Cell)
    (hok : checkDf df = .ok ()) (hcol : getCol df objName = some col) :
    col ≠ [] ∧ col.all Cell.isAtoms = true := by
  have hred : checkDf df
      = (if col.length < 1 then Except.error PyError.valueErrorEmptyObjColumn
         else if col.all Cell.isAtoms then Except.ok ()
         else Except.error PyError.valueErrorNotAtomsType) := by
    unfold checkDf
    rw [hcol]
  rw [hred] at hok
  by_cases h1 : col.length < 1
  · rw [if_pos h1] at hok
    exact absurd hok (by simp)
  · rw [if_neg h1] at hok
    by_cases h2 : col.all Cell.isAtoms = true
    · refine ⟨?_, h2⟩
      intro hnil
      subst hnil
      simp at h1
    · rw [if_neg h2] at hok
      exact absurd hok (by simp)

theorem isAtoms_exists_toAtoms (cell : Cell) (h : cell.isAtoms = true) :
    ∃ a, cell.toAtoms = some a := by
  cases cell with
  | atoms a => exact ⟨a, rfl⟩
  | real x => exact absurd h (by simp [Cell.isAtoms])

theorem applyCell_ok (f : Atoms → Option ℝ) (cell : Cell) (x : ℝ)
    (h : applyCell f cell = .ok x) :
    ∃ a, cell.toAtoms = some a ∧ f a = some x := by
  unfold applyCell at h
  rcases hta : cell.toAtoms with _ | a
  · rw [hta] at h
    exact absurd h (by simp)
  · rw [hta] at h
    have h2 : (match f a with
        | none => Except.error PyError.indexError
        | some y => Except.ok y) = Except.ok x := h
    rcases hfa : f a with _ | y
    · rw [hfa] at h2
      exact absurd h2 (by simp)
    · rw [hfa] at h2
      exact ⟨a, rfl, by rw [hfa, Except.ok.inj h2]⟩

theorem applyCell_error_atoms (f : Atoms → Option ℝ) (cell : Cell)
    (hat : cell.isAtoms = true) (e : PyError) (h : applyCell f cell = .error e) :
    e = .indexError := by
  obtain ⟨a, hta⟩ := isAtoms_exists_toAtoms cell hat
  unfold applyCell at h
  rw [hta] at h
  have h2 : (match f a with
      | none => Except.error PyError.indexError
      | some y => Except.ok y) = Except.error e := h
  rcases hfa : f a with _ | y
  · rw [hfa] at h2
    exact (Except.error.inj h2).symm
  · rw [hfa] at h2
    exact absurd h2 (by simp)

theorem computeColumn_ok_spec (cells : List Cell) (f : Atoms → Option ℝ) :
    ∀ vals : List ℝ, computeColumn cells f = .ok vals →
      vals.length = cells.length ∧
      ∀ n cell, cells.get? n = some cell →
        ∃ a x, cell.toAtoms = some a ∧ f a = some x ∧ vals.get? n = some x := by
  induction cells with
  | nil =>
    intro vals h
    have h2 : (Except.ok [] : Except PyError (List ℝ)) = .ok vals := h
    have hv : vals = [] := (Except.ok.inj h2).symm
    subst hv
    refine ⟨rfl, ?_⟩
    intro n cell hc
    simp at hc
  | cons cell cells ih =>
    intro vals h
    unfold computeColumn at h
    rw [List.mapM_cons] at h
    rcases hac : applyCell f cell with e | x
    · rw [hac] at h
      exact absurd (show (Except.error e : Except PyError (List ℝ)) = .ok vals from h)
        (by simp)
    rw [hac] at h
    rcases hmm : cells.mapM (applyCell f) with e2 | tail
    · rw [hmm] at h
      exact absurd (show (Except.error e2 : Except PyError (List ℝ)) = .ok vals from h)
        (by simp)
    rw [hmm] at h
    have h2 : (Except.ok (x :: tail) : Except PyError (List ℝ)) = .ok vals := h
    have hv : vals = x :: tail := (Except.ok.inj h2).symm
    subst hv
    obtain ⟨hlen, hpt⟩ := ih tail (by unfold computeColumn; exact hmm)
    refine ⟨by simp [hlen], ?_⟩
    intro n cl hc
    cases n with
    | zero =>
      have hcc : cell = cl := by simpa using hc
      subst hcc
      obtain ⟨a, hta, hfa⟩ := applyCell_ok f cell x hac
      exact ⟨a, x, hta, hfa, rfl⟩
    | succ m =>
      have hc2 : cells.get? m = some cl := by simpa using hc
      obtain ⟨a, y, hta, hfa, hval⟩ := hpt m cl hc2
      exact ⟨a, y, hta, hfa, by simpa using hval⟩

theorem computeColumn_error_atoms (cells : List Cell) (f : Atoms → Option ℝ)
    (hall : cells.all Cell.isAtoms = true) :
    ∀ e : PyError, computeColumn cells f = .error e → e = .indexError := by
  induction cells with
  | nil =>
    intro e h
    have h2 : (Except.ok [] : Except PyError (List ℝ)) = .error e := h
    exact absurd h2 (by simp)
  | cons cell cells ih =>
    intro e h
    have hhead : cell.isAtoms = true := by
      have := List.all_eq_true.mp hall cell (by simp)
      exact this
    have htail : cells.all Cell.isAtoms = true := by
      rw [List.all_eq_true]
      intro c hc
      exact List.all_eq_true.mp hall c (by simp [hc])
    unfold computeColumn at h
    rw [List.mapM_cons] at h
    rcases hac : applyCell f cell with e1 | x
    · rw [hac] at h
      have h2 : (Except.error e1 : Except PyError (List ℝ)) = .error e := h
      rw [← Except.error.inj h2]
      exact applyCell_error_atoms f cell hhead e1 hac
    · rw [hac] at h
      rcases hmm : cells.mapM (applyCell f) with e2 | tail
      · rw [hmm] at h
        have h2 : (Except.error e2 : Except PyError (List ℝ)) = .error e := h
        rw [← Except.error.inj h2]
        exact ih htail e2 (by unfold computeColumn; exact hmm)
      · rw [hmm] at h
        have h2 : (Except.ok (x :: tail) : Except PyError (List ℝ)) = .error e := h
        exact absurd h2 (by simp)

theorem computeColumn_not_ok (cells : List Cell) (f : Atoms → Option ℝ)
    (cell : Cell) (hmem : cell ∈ cells) (a : Atoms) (ha : cell.toAtoms = some a)
    (hf : f a = none) : ∀ vals, computeColumn cells f ≠ .ok vals := by
  intro vals hok
  obtain ⟨hlen, hpt⟩ := computeColumn_ok_spec cells f vals hok
  obtain ⟨n, hn⟩ := List.mem_iff_get?.mp hmem
  obtain ⟨a2, x, ha2, hfa2, _⟩ := hpt n cell hn
  rw [ha] at ha2
  have : a2 = a := (Option.some.inj ha2).symm
  subst this
  rw [hf] at hfa2
  exact Option.noConfusion hfa2

/-- Reduction of `__add_universal_feature` once the label-0 cell and its
structure are known. -/
theorem addUniversalFeature_run (df : DataFrame) (func : Atoms → List Int → Option ℝ)
    (pfx : List Char) (idxs : List Int) (cell0 : Cell) (a0 : Atoms)
    (hlo : locRow0 df = some cell0) (ha0 : cell0.toAtoms = some a0) :
    addUniversalFeature df func pfx idxs = addUnivStep2 df func pfx idxs a0 := by
  have h1 : addUniversalFeature df func pfx idxs
      = (match cell0.toAtoms with
         | none => (.error .attributeError, df)
         | some particle => addUnivStep2 df func pfx idxs particle) := by
    unfold addUniversalFeature
    rw [hlo]
  rw [h1, ha0]

/-- Reduction of the continuation once the generated identifier and the
structure column are known. -/
theorem addUnivStep2_eq (df : DataFrame) (func : Atoms → List Int → Option ℝ)
    (pfx : List Char) (idxs : List Int) (particle : Atoms)
    (gid : List Char) (col : List Cell)
    (hgid : generate_feature_id particle idxs = some gid)
    (hcol : getCol df objName = some col) :
    addUnivStep2 df func pfx idxs particle
      = (match computeColumn col (fun p => func p idxs) with
         | .error e => (.error e, df)
         | .ok vals => (.ok (), setCol df (pfx ++ gid) (vals.map Cell.real))) := by
  have h2 : addUnivStep2 df func pfx idxs particle
      = (match getCol df objName with
         | none => (.error .keyError, df)
         | some cells =>
           match computeColumn cells (fun p => func p idxs) with
           | .error e => (.error e, df)
           | .ok vals => (.ok (), setCol df (pfx ++ gid) (vals.map Cell.real))) := by
    unfold addUnivStep2
    rw [hgid]
  rw [h2, hcol]

/-- Core of C4: on a valid table with label 0 present, if some row's
structure has an atom count not exceeding one of the index arguments
and the geometric function fails on such rows, the universal builder
raises `IndexError` and returns the table unchanged. -/
theorem addUniversal_oob (df : DataFrame) (col : List Cell)
    (func : Atoms → List Int → Option ℝ) (pfx : List Char) (idxs : List Int)
    (hok : checkDf df = .ok ()) (hcol : getCol df objName = some col)
    (hlen : col.length = df.index.length) (h0 : (0 : Int) ∈ df.index)
    (hfoob : ∀ a : Atoms, (∃ x ∈ idxs, (atomCount a : Int) ≤ x) → func a idxs = none)
    (hbad : ∃ cell ∈ col, ∃ a, cell.toAtoms = some a ∧
      ∃ x ∈ idxs, (atomCount a : Int) ≤ x) :
    addUniversalFeature df func pfx idxs = (.error .indexError, df) := by
  obtain ⟨pos, hfind⟩ := findIdx?_beq0_some df.index h0 0
  obtain ⟨hple, hpb⟩ := findIdx?_some_bound (fun x => x == 0) df.index 0 pos hfind
  have hposlt : pos < col.length := by omega
  have hget : col.get? pos = some (col.get ⟨pos, hposlt⟩) := List.get?_eq_get hposlt
  have hlo : locRow0 df = some (col.get ⟨pos, hposlt⟩) := by
    unfold locRow0
    rw [hfind, hcol]
    exact hget
  obtain ⟨hnil, hall⟩ := checkDf_ok_spec df col hok hcol
  have hcm : (col.get ⟨pos, hposlt⟩).isAtoms = true :=
    List.all_eq_true.mp hall _ (col.get_mem pos hposlt)
  obtain ⟨a0, ha0⟩ := isAtoms_exists_toAtoms _ hcm
  rw [addUniversalFeature_run df func pfx idxs _ a0 hlo ha0]
  rcases hgid : generate_feature_id a0 idxs with _ | gid
  · unfold addUnivStep2
    rw [hgid]
  · rw [addUnivStep2_eq df func pfx idxs a0 gid col hgid hcol]
    rcases hcc : computeColumn col (fun p => func p idxs) with e | vals
    · have he : e = .indexError := computeColumn_error_atoms col _ hall e hcc
      rw [he]
    · exfalso
      obtain ⟨cellb, hmemb, ab, hab, hx⟩ := hbad
      exact computeColumn_not_ok col (fun p => func p idxs) cellb hmemb ab hab
        (hfoob ab hx) vals hcc

/-- C4: on every valid table (label 0 present, aligned column), an atom
index argument that equals or exceeds the atom count of some row's
structure makes the distance and angle add-feature operations raise an
`IndexError` that propagates, with no new column inserted — the table is
returned unchanged. -/
theorem add_feature_index_out_of_range (df : DataFrame) (col : List Cell)
    (hok : checkDf df = .ok ()) (hcol : getCol df objName = some col)
    (hlen : col.length = df.index.length) (h0 : (0 : Int) ∈ df.index) :
    (∀ i j : Int,
      (∃ cell ∈ col, ∃ a, cell.toAtoms = some a ∧
        ((atomCount a : Int) ≤ i ∨ (atomCount a : Int) ≤ j)) →
      add_dst_feature df i j = (.error .indexError, df)) ∧
    (∀ i j k : Int,
      (∃ cell ∈ col, ∃ a, cell.toAtoms = some a ∧
        ((atomCount a : Int) ≤ i ∨ (atomCount a : Int) ≤ j ∨
          (atomCount a : Int) ≤ k)) →
      add_ang_feature df i j k = (.error .indexError, df)) := by
  constructor
  · intro i j hbad
    unfold add_dst_feature
    rw [assert_proper_input_ok df hok]
    apply addUniversal_oob df col dstApply dstPfx [i, j] hok hcol hlen h0
    · intro a hx
      obtain ⟨x, hxm, hxc⟩ := hx
      show get_distance a i j = none
      apply get_distance_oob
      rcases List.mem_cons.mp hxm with rfl | hxm2
      · exact Or.inl hxc
      · have : x = j := by simpa using hxm2
        subst this
        exact Or.inr hxc
    · obtain ⟨cell, hmem, a, hta, hor⟩ := hbad
      refine ⟨cell, hmem, a, hta, ?_⟩
      rcases hor with h1 | h2
      · exact ⟨i, by simp, h1⟩
      · exact ⟨j, by simp, h2⟩
  · intro i j k hbad
    unfold add_ang_feature
    rw [assert_proper_input_ok df hok]
    apply addUniversal_oob df col angApply angPfx [i, j, k] hok hcol hlen h0
    · intro a hx
      obtain ⟨x, hxm, hxc⟩ := hx
      show get_angle a i j k = none
      apply get_angle_oob
      rcases List.mem_cons.mp hxm with rfl | hxm2
      · exact Or.inl hxc
      rcases List.mem_cons.mp hxm2 with rfl | hxm3
      · exact Or.inr (Or.inl hxc)
      · have : x = k := by simpa using hxm3
        subst this
        exact Or.inr (Or.inr hxc)
    · obtain ⟨cell, hmem, a, hta, hor⟩ := hbad
      refine ⟨cell, hmem, a, hta, ?_⟩
      rcases hor with h1 | h2 | h3
      · exact ⟨i, by simp, h1⟩
      · exact ⟨j, by simp, h2⟩
      · exact ⟨k, by simp, h3⟩

/-- Valid one-row table over the single-atom structure, labelled 0. -/
def dfOneC : DataFrame := ⟨[0], [(objName, [Cell.atoms sampleC])]⟩

/-- C4 witness: on the concrete one-atom table, `add_dst_feature` with
index 5 (and `add_ang_feature` with index 7) fails with `IndexError`
and the table is unchanged. -/
theorem add_feature_index_out_of_range_wit :
    add_dst_feature dfOneC 0 5 = (.error .indexError, dfOneC) ∧
    add_ang_feature dfOneC 0 7 0 = (.error .indexError, dfOneC) := by
  have h := add_feature_index_out_of_range dfOneC [Cell.atoms sampleC] rfl rfl rfl
    (by decide)
  constructor
  · exact h.1 0 5 ⟨Cell.atoms sampleC, by simp, sampleC, rfl, Or.inr (by decide)⟩
  · exact h.2 0 7 0 ⟨Cell.atoms sampleC, by simp, sampleC, rfl,
      Or.inr (Or.inl (by decide))⟩

/-! ### Frame condition of a successful add-feature call -/

theorem find?_map_set (cols : List (List Char × List Cell)) (name : List Char)
    (vals : List Cell) (hex : cols.any (fun c => c.1 == name) = true) :
    (cols.map (fun c => if c.1 == name then (name, vals) else c)).find?
      (fun c => c.1 == name) = some (name, vals) := by
  induction cols with
  | nil => simp at hex
  | cons c cs ih =>
    by_cases hc : (c.1 == name) = true
    · rw [List.map_cons, if_pos hc]
      exact List.find?_cons_of_pos _ (by simp)
    · rw [List.map_cons, if_neg hc]
      rw [List.find?_cons_of_neg (p := fun c => c.1 == name) (a := c) _ hc]
      rw [List.any_cons] at hex
      have hex2 : cs.any (fun c => c.1 == name) = true := by
        rcases Bool.or_eq_true_iff.mp hex with h1 | h2
        · exact absurd h1 hc
        · exact h2
      exact ih hex2

theorem find?_map_set_other (cols : List (List Char × List Cell)) (name : List Char)
    (vals : List Cell) (name2 : List Char) (hne : name2 ≠ name) :
    (cols.map (fun c => if c.1 == name then (name, vals) else c)).find?
      (fun c => c.1 == name2) = cols.find? (fun c => c.1 == name2) := by
  induction cols with
  | nil => rfl
  | cons c cs ih =>
    rw [List.map_cons]
    by_cases hc : (c.1 == name) = true
    · have hcn : c.1 = name := eq_of_beq hc
      have hno : ¬ ((c.1 == name2) = true) := by
        intro h2
        exact hne ((eq_of_beq h2).symm.trans hcn)
      have hno2 : ¬ (((name, vals).1 == name2) = true) := by
        intro h2
        exact hne (eq_of_beq h2).symm
      rw [if_pos hc,
        List.find?_cons_of_neg (p := fun c => c.1 == name2) (a := (name, vals)) _ hno2,
        List.find?_cons_of_neg (p := fun c => c.1 == name2) (a := c) _ hno]
      exact ih
    · rw [if_neg hc]
      by_cases h2 : (c.1 == name2) = true
      · rw [List.find?_cons_of_pos (p := fun c => c.1 == name2) (a := c) _ h2,
          List.find?_cons_of_pos (p := fun c => c.1 == name2) (a := c) _ h2]
      · rw [List.find?_cons_of_neg (p := fun c => c.1 == name2) (a := c) _ h2,
          List.find?_cons_of_neg (p := fun c => c.1 == name2) (a := c) _ h2]
        exact ih

theorem find?_append_self (cols : List (List Char × List Cell)) (name : List Char)
    (vals : List Cell) (hnex : cols.any (fun c => c.1 == name) = false) :
    (cols ++ [(name, vals)]).find? (fun c => c.1 == name) = some (name, vals) := by
  induction cols with
  | nil =>
    rw [List.nil_append]
    exact List.find?_cons_of_pos _ (by simp)
  | cons c cs ih =>
    rw [List.any_cons] at hnex
    have hsplit := Bool.or_eq_false_iff.mp hnex
    rw [List.cons_append,
      List.find?_cons_of_neg (p := fun c => c.1 == name) (a := c) _
        (by simp [hsplit.1])]
    exact ih hsplit.2

theorem find?_append_other (cols : List (List Char × List Cell)) (name : List Char)
    (vals : List Cell) (name2 : List Char) (hne : name2 ≠ name) :
    (cols ++ [(name, vals)]).find? (fun c => c.1 == name2)
      = cols.find? (fun c => c.1 == name2) := by
  induction cols with
  | nil =>
    rw [List.nil_append,
      List.find?_cons_of_neg (p := fun c => c.1 == name2) (a := (name, vals)) _
        (fun h2 => hne (eq_of_beq h2).symm)]
  | cons c cs ih =>
    by_cases h2 : (c.1 == name2) = true
    · rw [List.cons_append,
        List.find?_cons_of_pos (p := fun c => c.1 == name2) (a := c) _ h2,
        List.find?_cons_of_pos (p := fun c => c.1 == name2) (a := c) _ h2]
    · rw [List.cons_append,
        List.find?_cons_of_neg (p := fun c => c.1 == name2) (a := c) _ h2,
        List.find?_cons_of_neg (p := fun c => c.1 == name2) (a := c) _ h2]
      exact ih

theorem getCol_setCol_same (df : DataFrame) (name : List Char) (vals : List Cell) :
    getCol (setCol df name vals) name = some vals := by
  unfold getCol setCol
  by_cases hex : df.cols.any (fun c => c.1 == name) = true
  · rw [if_pos hex]
    show ((df.cols.map (fun c => if c.1 == name then (name, vals) else c)).find?
        (fun c => c.1 == name)).map (fun c => c.2) = some vals
    rw [find?_map_set df.cols name vals hex]
    rfl
  · rw [if_neg hex]
    show ((df.cols ++ [(name, vals)]).find? (fun c => c.1 == name)).map
        (fun c => c.2) = some vals
    rw [find?_append_self df.cols name vals (Bool.eq_false_iff.mpr hex)]
    rfl

theorem getCol_setCol_other (df : DataFrame) (name : List Char) (vals : List Cell)
    (name2 : List Char) (hne : name2 ≠ name) :
    getCol (setCol df name vals) name2 = getCol df name2 := by
  unfold getCol setCol
  by_cases hex : df.cols.any (fun c => c.1 == name) = true
  · rw [if_pos hex]
    show ((df.cols.map (fun c => if c.1 == name then (name, vals) else c)).find?
        (fun c => c.1 == name2)).map (fun c => c.2)
      = (df.cols.find? (fun c => c.1 == name2)).map (fun c => c.2)
    rw [find?_map_set_other df.cols name vals name2 hne]
  · rw [if_neg hex]
    show ((df.cols ++ [(name, vals)]).find? (fun c => c.1 == name2)).map
        (fun c => c.2)
      = (df.cols.find? (fun c => c.1 == name2)).map (fun c => c.2)
    rw [find?_append_other df.cols name vals name2 hne]

theorem setCol_names (df : DataFrame) (name : List Char) (vals : List Cell) :
    (setCol df name vals).cols.map (fun c => c.1)
      = (if df.cols.any (fun c => c.1 == name) = true
         then df.cols.map (fun c => c.1)
         else df.cols.map (fun c => c.1) ++ [name]) := by
  unfold setCol
  by_cases hex : df.cols.any (fun c => c.1 == name) = true
  · rw [if_pos hex, if_pos hex]
    show (df.cols.map (fun c => if c.1 == name then (name, vals) else c)).map
        (fun c => c.1) = df.cols.map (fun c => c.1)
    rw [List.map_map]
    apply map_congr_mem
    intro c hc
    by_cases hc2 : (c.1 == name) = true
    · simp only [Function.comp_apply, if_pos hc2]
      exact (eq_of_beq hc2).symm
    · simp only [Function.comp_apply, if_neg hc2]
  · rw [if_neg hex, if_neg hex]
    show (df.cols ++ [(name, vals)]).map (fun c => c.1)
      = df.cols.map (fun c => c.1) ++ [name]
    rw [List.map_append]
    rfl

theorem setCol_index (df : DataFrame) (name : List Char) (vals : List Cell) :
    (setCol df name vals).index = df.index := by
  unfold setCol
  split <;> rfl

/-- Success inversion of the continuation. -/
theorem addUnivStep2_ok_inv (df : DataFrame) (func : Atoms → List Int → Option ℝ)
    (pfx : List Char) (idxs : List Int) (particle : Atoms) (res : DataFrame)
    (h : addUnivStep2 df func pfx idxs particle = (.ok (), res)) :
    ∃ gid col vals, generate_feature_id particle idxs = some gid ∧
      getCol df objName = some col ∧
      computeColumn col (fun p => func p idxs) = .ok vals ∧
      res = setCol df (pfx ++ gid) (vals.map Cell.real) := by
  rcases hgid : generate_feature_id particle idxs with _ | gid
  · have h1 : addUnivStep2 df func pfx idxs particle = (.error .indexError, df) := by
      unfold addUnivStep2
      rw [hgid]
    rw [h1] at h
    simp at h
  rcases hcol : getCol df objName with _ | col
  · have h1 : addUnivStep2 df func pfx idxs particle = (.error .keyError, df) := by
      have h2 : addUnivStep2 df func pfx idxs particle
          = (match getCol df objName with
             | none => ((.error .keyError, df) : Except PyError Unit × DataFrame)
             | some cells =>
               match computeColumn cells (fun p => func p idxs) with
               | .error e => (.error e, df)
               | .ok vals => (.ok (), setCol df (pfx ++ gid) (vals.map Cell.real))) := by
        unfold addUnivStep2
        rw [hgid]
      rw [h2, hcol]
    rw [h1] at h
    simp at h
  rw [addUnivStep2_eq df func pfx idxs particle gid col hgid hcol] at h
  rcases hcc : computeColumn col (fun p => func p idxs) with e | vals
  · rw [hcc] at h
    simp at h
  · rw [hcc] at h
    have hres := congrArg Prod.snd h
    exact ⟨gid, col, vals, rfl, rfl, hcc, hres.symm⟩

/-- Success inversion of `__add_universal_feature`. -/
theorem addUniversalFeature_ok_inv (df : DataFrame)
    (func : Atoms → List Int → Option ℝ) (pfx : List Char) (idxs : List Int)
    (res : DataFrame)
    (hrun : addUniversalFeature df func pfx idxs = (.ok (), res)) :
    ∃ cell0 particle gid col vals,
      locRow0 df = some cell0 ∧ cell0.toAtoms = some particle ∧
      generate_feature_id particle idxs = some gid ∧
      getCol df objName = some col ∧
      computeColumn col (fun p => func p idxs) = .ok vals ∧
      res = setCol df (pfx ++ gid) (vals.map Cell.real) := by
  rcases hlo : locRow0 df with _ | cell0
  · unfold addUniversalFeature at hrun
    rw [hlo] at hrun
    simp at hrun
  rcases hta : cell0.toAtoms with _ | particle
  · have h1 : addUniversalFeature df func pfx idxs = (.error .attributeError, df) := by
      have h2 : addUniversalFeature df func pfx idxs
          = (match cell0.toAtoms with
             | none => ((.error .attributeError, df) : Except PyError Unit × DataFrame)
             | some particle => addUnivStep2 df func pfx idxs particle) := by
        unfold addUniversalFeature
        rw [hlo]
      rw [h2, hta]
    rw [h1] at hrun
    simp at hrun
  rw [addUniversalFeature_run df func pfx idxs cell0 particle hlo hta] at hrun
  obtain ⟨gid, col, vals, hgid, hcol, hcc, hres⟩ :=
    addUnivStep2_ok_inv df func pfx idxs particle res hrun
  exact ⟨cell0, particle, gid, col, vals, rfl, hta, hgid, hcol, hcc, hres⟩

/-- C6 (amended): on a valid table, a successful universal add-feature
call adds exactly one column, named by the Feature Name Codec from the
structure of the row labelled `0` (the positionally first row when the
table carries the default index); every pre-existing column and value
under a different name is unchanged, an existing column of the same
name is overwritten in place, the row labels are untouched, and each
row's value in the new column is the geometric function applied to that
row's structure with the given indices. -/
theorem add_feature_frame (df : DataFrame) (func : Atoms → List Int → Option ℝ)
    (pfx : List Char) (idxs : List Int) (res : DataFrame)
    (_hok : checkDf df = .ok ())
    (hrun : addUniversalFeature df func pfx idxs = (.ok (), res)) :
    ∃ cell0 particle gid col vals,
      locRow0 df = some cell0 ∧ cell0.toAtoms = some particle ∧
      generate_feature_id particle idxs = some gid ∧
      getCol df objName = some col ∧
      computeColumn col (fun p => func p idxs) = .ok vals ∧
      res = setCol df (pfx ++ gid) (vals.map Cell.real) ∧
      getCol res (pfx ++ gid) = some (vals.map Cell.real) ∧
      (∀ name2, name2 ≠ pfx ++ gid → getCol res name2 = getCol df name2) ∧
      res.index = df.index ∧
      (res.cols.map (fun c => c.1)
        = if df.cols.any (fun c => c.1 == pfx ++ gid) = true
          then df.cols.map (fun c => c.1)
          else df.cols.map (fun c => c.1) ++ [pfx ++ gid]) ∧
      vals.length = col.length ∧
      (∀ n cell, col.get? n = some cell →
        ∃ a x, cell.toAtoms = some a ∧ func a idxs = some x ∧
          vals.get? n = some x) := by
  obtain ⟨cell0, particle, gid, col, vals, hlo, hta, hgid, hcol, hcc, hres⟩ :=
    addUniversalFeature_ok_inv df func pfx idxs res hrun
  obtain ⟨hlen, hpt⟩ := computeColumn_ok_spec col (fun p => func p idxs) vals hcc
  subst hres
  refine ⟨cell0, particle, gid, col, vals, hlo, hta, hgid, hcol, hcc, rfl,
    getCol_setCol_same df (pfx ++ gid) (vals.map Cell.real),
    fun name2 hne => getCol_setCol_other df (pfx ++ gid) (vals.map Cell.real) name2 hne,
    setCol_index df (pfx ++ gid) (vals.map Cell.real),
    setCol_names df (pfx ++ gid) (vals.map Cell.real),
    hlen, hpt⟩

/-- C6 witness: on the concrete one-row table the distance feature with
indices `(0, 0)` succeeds; all frame facts are obtained by applying the
frame theorem to the concrete run. -/
theorem add_feature_frame_wit :
    ∃ cell0 particle gid col vals,
      locRow0 dfOneC = some cell0 ∧ cell0.toAtoms = some particle ∧
      generate_feature_id particle [0, 0] = some gid ∧
      getCol dfOneC objName = some col ∧
      computeColumn col (fun p => dstApply p [0, 0]) = .ok vals ∧
      setCol dfOneC (dstPfx ++ ['C', '0', 'C', '0'])
          ([norm3 (sub3 ((0 : ℝ), 0, 0) ((0 : ℝ), 0, 0))].map Cell.real)
        = setCol dfOneC (dstPfx ++ gid) (vals.map Cell.real) ∧
      getCol (setCol dfOneC (dstPfx ++ ['C', '0', 'C', '0'])
          ([norm3 (sub3 ((0 : ℝ), 0, 0) ((0 : ℝ), 0, 0))].map Cell.real))
          (dstPfx ++ gid)
        = some (vals.map Cell.real) ∧
      (∀ name2, name2 ≠ dstPfx ++ gid →
        getCol (setCol dfOneC (dstPfx ++ ['C', '0', 'C', '0'])
          ([norm3 (sub3 ((0 : ℝ), 0, 0) ((0 : ℝ), 0, 0))].map Cell.real)) name2
          = getCol dfOneC name2) ∧
      (setCol dfOneC (dstPfx ++ ['C', '0', 'C', '0'])
          ([norm3 (sub3 ((0 : ℝ), 0, 0) ((0 : ℝ), 0, 0))].map Cell.real)).index
        = dfOneC.index ∧
      ((setCol dfOneC (dstPfx ++ ['C', '0', 'C', '0'])
          ([norm3 (sub3 ((0 : ℝ), 0, 0) ((0 : ℝ), 0, 0))].map Cell.real)).cols.map
            (fun c => c.1)
        = if dfOneC.cols.any (fun c => c.1 == dstPfx ++ gid) = true
          then dfOneC.cols.map (fun c => c.1)
          else dfOneC.cols.map (fun c => c.1) ++ [dstPfx ++ gid]) ∧
      vals.length = col.length ∧
      (∀ n cell, col.get? n = some cell →
        ∃ a x, cell.toAtoms = some a ∧ dstApply a [0, 0] = some x ∧
          vals.get? n = some x) :=
  add_feature_frame dfOneC dstApply dstPfx [0, 0]
    (setCol dfOneC (dstPfx ++ ['C', '0', 'C', '0'])
      ([norm3 (sub3 ((0 : ℝ), 0, 0) ((0 : ℝ), 0, 0))].map Cell.real)) rfl rfl

/-- Two hydrogens one Angstrom apart. -/
def sampleHH : Atoms := ⟨[['H'], ['H']], [((0 : ℝ), 0, 0), ((1 : ℝ), 0, 0)]⟩

/-- Two carbons one Angstrom apart. -/
def sampleCC : Atoms := ⟨[['C'], ['C']], [((0 : ℝ), 0, 0), ((1 : ℝ), 0, 0)]⟩

/-- Valid two-row table whose labels are permuted: label 5 first, label
0 second, with DIFFERENT chemical symbols in the two rows. -/
def dfPermuted : DataFrame :=
  ⟨[5, 0], [(objName, [Cell.atoms sampleHH, Cell.atoms sampleCC])]⟩

/-- C6 counterexample: on a valid table whose positionally first row is
labelled 5 (the label-0 row sits second and holds carbons, not
hydrogens), the distance feature call succeeds, yet the new column is
NOT named from the first row's structure (`dstH0H0` is absent); it is
named from the row labelled 0 (`dstC0C0`). -/
theorem add_feature_frame_cex :
    (add_dst_feature dfPermuted 0 0).1 = .ok () ∧
    getCol (add_dst_feature dfPermuted 0 0).2
      ['d', 's', 't', 'H', '0', 'H', '0'] = none ∧
    getCol (add_dst_feature dfPermuted 0 0).2
      ['d', 's', 't', 'C', '0', 'C', '0']
      = some [Cell.real (norm3 (sub3 ((0 : ℝ), 0, 0) ((0 : ℝ), 0, 0))),
              Cell.real (norm3 (sub3 ((0 : ℝ), 0, 0) ((0 : ℝ), 0, 0)))] :=
  ⟨rfl, rfl, rfl⟩

end AuFeatures
